import Mathlib

/-!
Verification of the NEET college-predictor engine
(`src/utils/predictorLogic.ts`) against its specification.

The engine is pure numeric/string list processing.  JavaScript numbers are
modelled exactly: a value is NaN, +∞, −∞, or a finite real (`JSNum`); the
floating-point rounding of individual arithmetic operations is outside the
model.  `year` is modelled as a real number: the source only stringifies it
(injectively, for grouping) and compares it.  JavaScript's stable
`Array.prototype.sort` with a consistent comparator is modelled by
`List.insertionSort` with the comparator's "does not come after" relation.
-/

namespace Predictor

open Classical

/-- A JavaScript number: NaN, one of the two infinities, or a finite real. -/
inductive JSNum where
  | nan : JSNum
  | posInf : JSNum
  | negInf : JSNum
  | num : ℝ → JSNum

/-- `Number.isFinite`. -/
def JSNum.isFinite : JSNum → Bool
  | JSNum.num _ => true
  | _ => false

/-- The finite payload of a `JSNum` (0 for NaN and the infinities; only read
under an `isFinite` guard, mirroring the source's guarded arithmetic). -/
def JSNum.valD : JSNum → ℝ
  | JSNum.num x => x
  | _ => 0

/-- JavaScript `<` on numbers: false whenever NaN is involved. -/
def jsLt : JSNum → JSNum → Prop
  | JSNum.nan, _ => False
  | _, JSNum.nan => False
  | JSNum.negInf, JSNum.negInf => False
  | JSNum.negInf, _ => True
  | _, JSNum.negInf => False
  | JSNum.posInf, _ => False
  | JSNum.num _, JSNum.posInf => True
  | JSNum.num a, JSNum.num b => a < b

/-- JavaScript `===` on numbers: false whenever NaN is involved. -/
def jsEq : JSNum → JSNum → Prop
  | JSNum.nan, _ => False
  | _, JSNum.nan => False
  | JSNum.posInf, JSNum.posInf => True
  | JSNum.negInf, JSNum.negInf => True
  | JSNum.posInf, _ => False
  | JSNum.negInf, _ => False
  | JSNum.num _, JSNum.posInf => False
  | JSNum.num _, JSNum.negInf => False
  | JSNum.num a, JSNum.num b => a = b

/-- Binary `Math.min`: NaN absorbs, −∞ dominates, +∞ is the identity. -/
noncomputable def jsMin2 : JSNum → JSNum → JSNum
  | JSNum.nan, _ => JSNum.nan
  | _, JSNum.nan => JSNum.nan
  | JSNum.negInf, _ => JSNum.negInf
  | _, JSNum.negInf => JSNum.negInf
  | JSNum.posInf, b => b
  | a, JSNum.posInf => a
  | JSNum.num a, JSNum.num b => JSNum.num (min a b)

/-- Binary `Math.max`: NaN absorbs, +∞ dominates, −∞ is the identity. -/
noncomputable def jsMax2 : JSNum → JSNum → JSNum
  | JSNum.nan, _ => JSNum.nan
  | _, JSNum.nan => JSNum.nan
  | JSNum.posInf, _ => JSNum.posInf
  | _, JSNum.posInf => JSNum.posInf
  | JSNum.negInf, b => b
  | a, JSNum.negInf => a
  | JSNum.num a, JSNum.num b => JSNum.num (max a b)

/-- `Math.min(...l)`: `Math.min()` with no arguments is `Infinity`. -/
noncomputable def listJsMin (l : List JSNum) : JSNum := l.foldl jsMin2 JSNum.posInf

/-- `Math.max(...l)`: `Math.max()` with no arguments is `-Infinity`. -/
noncomputable def listJsMax (l : List JSNum) : JSNum := l.foldl jsMax2 JSNum.negInf

/-- `CollegeSummary` of the source: identity strings plus per-metric stats. -/
structure CollegeSummary where
  college : String
  course : String
  quota : String
  category : String
  community : String
  college_type : String
  round : String
  year : ℝ
  rank_mean : JSNum
  rank_std : JSNum
  rank_min : JSNum
  rank_max : JSNum
  marks_mean : JSNum
  marks_std : JSNum
  marks_min : JSNum
  marks_max : JSNum

instance : Inhabited CollegeSummary :=
  ⟨⟨"", "", "", "", "", "", "", 0, JSNum.nan, JSNum.nan, JSNum.nan, JSNum.nan,
    JSNum.nan, JSNum.nan, JSNum.nan, JSNum.nan⟩⟩

/-- The `method` tag of a probability explanation. -/
inductive Method where
  | normal_cdf : Method
  | min_max_linear : Method
  | fallback : Method
deriving DecidableEq

/-- The qualitative chance tier. -/
inductive Chance where
  | Low : Chance
  | Medium : Chance
  | High : Chance
deriving DecidableEq

/-- `PredictedCollege["probabilityDetails"]` of the source. -/
structure ProbabilityDetails where
  method : Method
  inputMarks : JSNum
  mean : JSNum
  std : JSNum
  min : JSNum
  max : JSNum
  zScore : Option ℝ
  rawScore : ℝ

/-- `PredictedCollege` of the source (a summary plus prediction fields). -/
structure PredictedCollege extends CollegeSummary where
  probability : ℝ
  chance : Chance
  allotmentRound : String
  probabilityDetails : ProbabilityDetails

/-- `PredictorFilters` of the source. -/
structure PredictorFilters where
  course : String
  community : String
  category : String
  quota : String
  collegeType : String

/-- `ConsolidatedCollege` of the source. -/
structure ConsolidatedCollege extends CollegeSummary where
  roundSummaries : List CollegeSummary

/-- The validity test of `aggregateMeanStd`'s filter: both components finite
and the standard deviation nonnegative. -/
noncomputable def isValidObs (p : JSNum × JSNum) : Bool :=
  p.1.isFinite && p.2.isFinite && decide (0 ≤ p.2.valD)

/-- `aggregateMeanStd` of the source: unweighted mean of the valid means, and
the square root of the second-moment variance estimate floored at 0.  The
source's `reduce` sums are written with `List.sum`, equal over exact reals. -/
noncomputable def aggregateMeanStd (points : List (JSNum × JSNum)) : ℝ × ℝ :=
  match points with
  | [] => (0, 0)
  | _ :: _ =>
    let valid := points.filter isValidObs
    if valid = [] then (0, 0)
    else
      let n : ℝ := valid.length
      let mean := (valid.map (fun p => p.1.valD)).sum / n
      let secondMoment :=
        (valid.map (fun p => p.2.valD * p.2.valD + p.1.valD * p.1.valD)).sum / n
      let variance := max 0 (secondMoment - mean * mean)
      (mean, Real.sqrt variance)

/-- JavaScript whitespace for `trim` (the common ASCII whitespace; the
dataset's identity strings hold no exotic Unicode spaces). -/
def jsWhitespaceChar (c : Char) : Bool := c = ' ' || c = '\t' || c = '\n' || c = '\r'

/-- `.trim().toLowerCase()` of the source, over the character list (ASCII
lowering, which agrees with JavaScript on the dataset's ASCII identity
strings). -/
def trimLower (s : String) : String :=
  ⟨(((s.data.dropWhile jsWhitespaceChar).reverse.dropWhile jsWhitespaceChar).reverse).map
    Char.toLower⟩

/-- The grouping key of `consolidateAcrossRounds`: the six identity strings
trimmed, lower-cased and joined with `"|"`, paired with the year (the source
joins `String(item.year)` into the same string; keeping the year as a
separate exact component is equivalent since its rendering is injective). -/
def consolidationKey (item : CollegeSummary) : String × ℝ :=
  (String.intercalate "|"
      (([item.college, item.course, item.quota, item.category, item.community,
          item.college_type]).map (fun v => trimLower v)),
    item.year)

/-- One step of the insertion-ordered grouping map: append to the existing
entry for the key, or add a new entry at the end. -/
noncomputable def addToGroups (k : String × ℝ) (item : CollegeSummary) :
    List ((String × ℝ) × List CollegeSummary) →
      List ((String × ℝ) × List CollegeSummary)
  | [] => [(k, [item])]
  | (k2, l) :: rest =>
    if k2 = k then (k2, l ++ [item]) :: rest else (k2, l) :: addToGroups k item rest

/-- The `Map`-based grouping of `consolidateAcrossRounds`, in insertion order. -/
noncomputable def groupByKey (data : List CollegeSummary) :
    List ((String × ℝ) × List CollegeSummary) :=
  data.foldl (fun gs item => addToGroups (consolidationKey item) item gs) []

/-- The body of `consolidateAcrossRounds`'s map over one group. -/
noncomputable def consolidateGroup (items : List CollegeSummary) : ConsolidatedCollege :=
  let base := items.headI
  let rankAgg := aggregateMeanStd (items.map (fun item => (item.rank_mean, item.rank_std)))
  let marksAgg := aggregateMeanStd (items.map (fun item => (item.marks_mean, item.marks_std)))
  { toCollegeSummary :=
      { base with
        round := "All Rounds"
        rank_mean := JSNum.num rankAgg.1
        rank_std := JSNum.num rankAgg.2
        rank_min := listJsMin (items.map (fun item => item.rank_min))
        rank_max := listJsMax (items.map (fun item => item.rank_max))
        marks_mean := JSNum.num marksAgg.1
        marks_std := JSNum.num marksAgg.2
        marks_min := listJsMin (items.map (fun item => item.marks_min))
        marks_max := listJsMax (items.map (fun item => item.marks_max)) }
    roundSummaries := items }

/-- `consolidateAcrossRounds` of the source. -/
noncomputable def consolidateAcrossRounds (data : List CollegeSummary) :
    List ConsolidatedCollege :=
  (groupByKey data).map (fun g => consolidateGroup g.2)

/-- The first maximal digit run of a character list (`/\d+/`). -/
def firstDigitRun : List Char → Option (List Char)
  | [] => none
  | c :: cs => if c.isDigit then some (c :: cs.takeWhile Char.isDigit) else firstDigitRun cs

/-- The numeric value of a digit run (`Number(match[0])`, exact). -/
def digitsVal (ds : List Char) : ℕ := ds.foldl (fun acc c => 10 * acc + (c.toNat - 48)) 0

/-- `roundOrder` of the source: the first integer substring of the label, or
`Number.MAX_SAFE_INTEGER` when the label holds no digit. -/
def roundOrder (round : String) : ℕ :=
  match firstDigitRun round.data with
  | none => 9007199254740991
  | some ds => digitsVal ds

/-- `matchOptionalFilter` of the source.  The record field is `string |
undefined` there; JavaScript's `!value` is true for `undefined` and for the
empty string. -/
def matchOptionalFilter (value : Option String) (selected : String) : Bool :=
  let picked := trimLower selected
  if picked = "" then true
  else
    match value with
    | none => true
    | some v => if v = "" then true else decide (trimLower v = picked)

/-- `clamp` of the source: `Math.min(hi, Math.max(lo, value))`. -/
noncomputable def clamp (value lo hi : ℝ) : ℝ := min hi (max lo value)

/-- The Horner polynomial of the Abramowitz–Stegun erf approximation,
including the trailing factor `t`. -/
noncomputable def erfPoly (t : ℝ) : ℝ :=
  ((((1.061405429 * t + (-1.453152027)) * t + 1.421413741) * t + (-0.284496736)) * t
      + 0.254829592) * t

/-- `normalCdf` of the source (Abramowitz–Stegun erf approximation). -/
noncomputable def normalCdf (z : ℝ) : ℝ :=
  let sign : ℝ := if z < 0 then -1 else 1
  let x := |z| / Real.sqrt 2
  let t := 1 / (1 + 0.3275911 * x)
  let erf := 1 - erfPoly t * Real.exp (-(x * x))
  0.5 * (1 + sign * erf)

/-- The even factor of the erf approximation: `normalCdf z` is
`0.5 * (1 + sign · (1 - gAux (|z|/√2)))`. -/
noncomputable def gAux (x : ℝ) : ℝ :=
  erfPoly (1 / (1 + 0.3275911 * x)) * Real.exp (-(x * x))

/-- `probabilityFromStats` of the source: the five-branch resolution.  All
comparisons in the source happen under `Number.isFinite` guards, so they act
on the finite payloads. -/
noncomputable def probabilityFromStats (marks : JSNum) (college : CollegeSummary) :
    ProbabilityDetails :=
  let mean := college.marks_mean
  let std := college.marks_std
  let mn := college.marks_min
  let mx := college.marks_max
  if ¬ marks.isFinite ∨ ¬ mean.isFinite then
    ⟨Method.fallback, marks, mean, std, mn, mx, none, 0⟩
  else if mn.isFinite ∧ marks.valD < mn.valD then
    ⟨Method.fallback, marks, mean, std, mn, mx, none, 0⟩
  else if std.isFinite ∧ 0 < std.valD then
    let z := (marks.valD - mean.valD) / std.valD
    ⟨Method.normal_cdf, marks, mean, std, mn, mx, some z, clamp (normalCdf z) 0 1⟩
  else if mn.isFinite ∧ mx.isFinite ∧ mn.valD < mx.valD then
    ⟨Method.min_max_linear, marks, mean, std, mn, mx, none,
      clamp ((marks.valD - mn.valD) / (mx.valD - mn.valD)) 0 1⟩
  else
    ⟨Method.fallback, marks, mean, std, mn, mx, none,
      if mean.valD ≤ marks.valD then 0.85 else 0.15⟩

/-- `chanceFromProbability` of the source. -/
noncomputable def chanceFromProbability (probability : ℝ) : Chance :=
  if 0.75 ≤ probability then Chance.High
  else if 0.45 ≤ probability then Chance.Medium
  else Chance.Low

/-- The ascending comparator relation of `estimateAllotmentRound`'s sort. -/
def roundLe (a b : String × ℝ) : Prop := roundOrder a.1 ≤ roundOrder b.1

instance : DecidableRel roundLe := fun _a _b => Nat.decLe _ _

instance : IsTotal (String × ℝ) roundLe := ⟨fun a b => Nat.le_total (roundOrder a.1) (roundOrder b.1)⟩

instance : IsTrans (String × ℝ) roundLe := ⟨fun _a _b _c h1 h2 => Nat.le_trans h1 h2⟩

/-- `estimateAllotmentRound` of the source: label/score pairs sorted stably by
parsed round ordinal, then the first strong (≥ 0.5) round, else the first
positive one, else the sentinel. -/
noncomputable def estimateAllotmentRound (rounds : List CollegeSummary) (marks : JSNum) :
    String :=
  let rankedRounds :=
    (rounds.map (fun item => (item.round, (probabilityFromStats marks item).rawScore))).insertionSort
      roundLe
  match rankedRounds.find? (fun item => decide ((0.5:ℝ) ≤ item.2)) with
  | some strongRound => strongRound.1
  | none =>
    match rankedRounds.find? (fun item => decide ((0:ℝ) < item.2)) with
    | some possibleRound => possibleRound.1
    | none => "Not likely"

/-- The five-fold filter conjunction of `predictColleges`. -/
def passesFilters (filters : PredictorFilters) (c : CollegeSummary) : Bool :=
  matchOptionalFilter (some c.course) filters.course &&
  matchOptionalFilter (some c.community) filters.community &&
  matchOptionalFilter (some c.category) filters.category &&
  matchOptionalFilter (some c.quota) filters.quota &&
  matchOptionalFilter (some c.college_type) filters.collegeType

/-- The body of `predictColleges`'s map: probability, tier, estimated round. -/
noncomputable def mkPredicted (marks : JSNum) (c : ConsolidatedCollege) : PredictedCollege :=
  let probabilityDetails := probabilityFromStats marks c.toCollegeSummary
  { toCollegeSummary := c.toCollegeSummary
    probability := probabilityDetails.rawScore
    chance := chanceFromProbability probabilityDetails.rawScore
    allotmentRound := estimateAllotmentRound c.roundSummaries marks
    probabilityDetails := probabilityDetails }

instance : Inhabited PredictedCollege :=
  ⟨{ toCollegeSummary := default
     probability := 0
     chance := Chance.Low
     allotmentRound := ""
     probabilityDetails := ⟨Method.fallback, JSNum.nan, JSNum.nan, JSNum.nan,
       JSNum.nan, JSNum.nan, none, 0⟩ }⟩

/-- The dedup key: the institution name trimmed and lower-cased. -/
def collegeKey (item : PredictedCollege) : String := trimLower item.college

/-- `isBetter` of the source's dedup loop (JavaScript `>` and `===` on the
`marks_mean` field, which may be any number). -/
noncomputable def isBetter (item current : PredictedCollege) : Prop :=
  current.probability < item.probability ∨
    (item.probability = current.probability ∧ jsLt current.marks_mean item.marks_mean) ∨
    (item.probability = current.probability ∧ jsEq item.marks_mean current.marks_mean ∧
      current.year < item.year)

/-- One iteration of the dedup loop over the insertion-ordered `Map`:
replace the entry in place when strictly better, else keep it; a new key is
appended at the end. -/
noncomputable def dedupStep : List (String × PredictedCollege) → PredictedCollege →
    List (String × PredictedCollege)
  | [], item => [(collegeKey item, item)]
  | (k, current) :: rest, item =>
    if k = collegeKey item then
      (if isBetter item current then (k, item) else (k, current)) :: rest
    else (k, current) :: dedupStep rest item

/-- The `bestByCollege` map of the source, as an insertion-ordered
association list. -/
noncomputable def bestByCollege (ranked : List PredictedCollege) :
    List (String × PredictedCollege) :=
  ranked.foldl dedupStep []

/-- JavaScript `x || y` on comparator values: 0 falls through. -/
noncomputable def jsOr (a b : ℝ) : ℝ := if a = 0 then b else a

/-- The final sort comparator of `predictColleges` (the pipeline only sorts
records whose `marks_mean` is the finite aggregated mean, so the comparator
reads the finite payload). -/
noncomputable def finalCompare (a b : PredictedCollege) : ℝ :=
  jsOr (b.probability - a.probability) (b.marks_mean.valD - a.marks_mean.valD)

/-- "`a` does not come after `b`" under the final comparator. -/
noncomputable def finalLe (a b : PredictedCollege) : Prop := finalCompare a b ≤ 0

/-- The `ranked` stage of `predictColleges`: consolidate, filter by the five
criteria, predict, and keep raw scores of at least 0.1. -/
noncomputable def rankedCandidates (marks : JSNum) (filters : PredictorFilters)
    (data : List CollegeSummary) : List PredictedCollege :=
  (((consolidateAcrossRounds data).filter
      (fun c => passesFilters filters c.toCollegeSummary)).map
        (mkPredicted marks)).filter (fun c => decide ((0.1:ℝ) ≤ c.probability))

/-- `predictColleges` of the source. -/
noncomputable def predictColleges (marks : JSNum) (filters : PredictorFilters)
    (data : List CollegeSummary) : List PredictedCollege :=
  ((bestByCollege (rankedCandidates marks filters data)).map Prod.snd).insertionSort
    finalLe

/-! ### Specification-side definitions (worded from the claims) -/

/-- The distinct elements of a list, each at its first occurrence. -/
def firstKeys : List String → List String
  | [] => []
  | k :: ks => k :: (firstKeys ks).filter (fun x => x ≠ k)

/-- Keep the better of a kept record and a newcomer (the claim's tie-break:
higher probability, then higher marks mean, then more recent year; an exact
tie keeps the earlier record). -/
noncomputable def keepBetter (current item : PredictedCollege) : PredictedCollege :=
  if isBetter item current then item else current

/-- The best variant of a nonempty candidate group, scanning left to right. -/
noncomputable def bestVariant : List PredictedCollege → PredictedCollege
  | [] => default
  | x :: xs => xs.foldl keepBetter x

/-- The claim's dedup: one record per distinct key (in order of first
appearance), namely the best variant among the candidates with that key. -/
noncomputable def dedupByCollege (ranked : List PredictedCollege) : List PredictedCollege :=
  (firstKeys (ranked.map collegeKey)).map
    (fun k => bestVariant (ranked.filter (fun r => decide (collegeKey r = k))))

/-- The claim's final order: descending probability, ties broken by
descending marks mean. -/
noncomputable def descProbMean (a b : PredictedCollege) : Prop :=
  b.probability < a.probability ∨
    (a.probability = b.probability ∧ b.marks_mean.valD ≤ a.marks_mean.valD)

/-- The first element of a list attaining the minimal key. -/
def firstMinBy {α : Type} (key : α → ℕ) : List α → Option α
  | [] => none
  | x :: xs =>
    match firstMinBy key xs with
    | none => some x
    | some y => if key x ≤ key y then some x else some y

/-- The claim's round choice: among the per-round scores, the first round (in
the order of parsed round ordinals, earliest first on ties) whose raw score
is ≥ 0.5; else the first with a positive raw score; else the sentinel. -/
noncomputable def roundChoice (rounds : List CollegeSummary) (marks : JSNum) : String :=
  let cands := rounds.map (fun item => (item.round, (probabilityFromStats marks item).rawScore))
  match firstMinBy (fun q => roundOrder q.1) (cands.filter (fun q => decide ((0.5:ℝ) ≤ q.2))) with
  | some q => q.1
  | none =>
    match firstMinBy (fun q => roundOrder q.1)
        (cands.filter (fun q => decide ((0:ℝ) < q.2))) with
    | some q => q.1
    | none => "Not likely"

/-- A concrete summary with unit standard deviation, used to instantiate
hypotheses of the general theorems at a concrete input. -/
noncomputable def stdSummary : CollegeSummary :=
  { college := "a", course := "b", quota := "c", category := "d", community := "e",
    college_type := "f", round := "Round 1", year := 2023,
    rank_mean := JSNum.nan, rank_std := JSNum.nan, rank_min := JSNum.nan,
    rank_max := JSNum.nan, marks_mean := JSNum.num 0, marks_std := JSNum.num 1,
    marks_min := JSNum.nan, marks_max := JSNum.nan }

/-! ### Small reduction lemmas for the number model -/

@[simp] theorem isFinite_num (x : ℝ) : (JSNum.num x).isFinite = true := rfl

@[simp] theorem isFinite_nan : JSNum.nan.isFinite = false := rfl

@[simp] theorem isFinite_posInf : JSNum.posInf.isFinite = false := rfl

@[simp] theorem isFinite_negInf : JSNum.negInf.isFinite = false := rfl

@[simp] theorem valD_num (x : ℝ) : (JSNum.num x).valD = x := rfl

/-- A per-round record whose stats force the degenerate 0.85/0.15 fallback,
with a label holding no digits. -/
noncomputable def cexRoundA : CollegeSummary :=
  { college := "a", course := "b", quota := "c", category := "d", community := "e",
    college_type := "f", round := "alpha", year := 2023,
    rank_mean := JSNum.nan, rank_std := JSNum.nan, rank_min := JSNum.nan,
    rank_max := JSNum.nan, marks_mean := JSNum.num 0, marks_std := JSNum.num 0,
    marks_min := JSNum.nan, marks_max := JSNum.nan }

/-- The same record labelled with a parsed round number of 2^53, one above
`Number.MAX_SAFE_INTEGER`. -/
noncomputable def cexRoundB : CollegeSummary :=
  { cexRoundA with round := "Round 9007199254740992" }

/-! ### The probability model: bounds and monotonicity -/

theorem clamp01_nonneg (v : ℝ) : 0 ≤ clamp v 0 1 :=
  le_min (by norm_num) (le_max_left 0 v)

theorem clamp01_le_one (v : ℝ) : clamp v 0 1 ≤ 1 := min_le_left _ _

theorem clamp01_mono {v1 v2 : ℝ} (h : v1 ≤ v2) : clamp v1 0 1 ≤ clamp v2 0 1 :=
  min_le_min le_rfl (max_le_max le_rfl h)

/-- The Horner polynomial of the erf approximation is monotone on all of ℝ:
its derivative polynomial is an exact rational sum of squares. -/
theorem erfPoly_mono {t1 t2 : ℝ} (h12 : t1 ≤ t2) : erfPoly t1 ≤ erfPoly t2 := by
  have hP : 0 ≤ 0.254829592 + 2 * (-0.284496736) * ((t1 + t2) / 2)
      + 3 * 1.421413741 * ((t1 + t2) / 2) ^ 2 + 4 * (-1.453152027) * ((t1 + t2) / 2) ^ 3
      + 5 * 1.061405429 * ((t1 + t2) / 2) ^ 4 := by
    nlinarith [sq_nonneg ((31853699 : ℝ) - 35562092 * ((t1 + t2) / 2)
        + 8750000 * ((t1 + t2) / 2) ^ 2),
      sq_nonneg ((121255039421502165 : ℝ) * ((t1 + t2) / 2)
        - 90087188098595746 * ((t1 + t2) / 2) ^ 2),
      sq_nonneg (((t1 + t2) / 2) ^ 2)]
  have hq : t1 * t2 ≤ ((t1 + t2) / 2) ^ 2 := by nlinarith [sq_nonneg (t2 - t1)]
  have hB : (-1.421413741) - 2 * (-1.453152027) * (t1 + t2)
      - 3 * 1.061405429 * (t1 + t2) ^ 2
      + 1.061405429 * (t1 * t2 + (t1 + t2) ^ 2 / 4) ≤ 0 := by
    nlinarith [sq_nonneg ((5307027145 : ℝ) * (t1 + t2) - 2906304054)]
  have hprod : 0 ≤ (((t1 + t2) / 2) ^ 2 - t1 * t2) *
      (0 - ((-1.421413741) - 2 * (-1.453152027) * (t1 + t2)
        - 3 * 1.061405429 * (t1 + t2) ^ 2
        + 1.061405429 * (t1 * t2 + (t1 + t2) ^ 2 / 4))) :=
    mul_nonneg (by linarith) (by linarith)
  have hd : (0:ℝ) ≤ t2 - t1 := by linarith
  have hS : 0 ≤ erfPoly t2 - erfPoly t1 := by
    unfold erfPoly
    nlinarith [mul_nonneg hd hP, mul_nonneg hd hprod]
  linarith

theorem erfPoly_zero : erfPoly 0 = 0 := by norm_num [erfPoly]

theorem erfPoly_nonneg {t : ℝ} (h : 0 ≤ t) : 0 ≤ erfPoly t :=
  erfPoly_zero ▸ erfPoly_mono h

theorem gAux_antitone {x1 x2 : ℝ} (h0 : 0 ≤ x1) (h12 : x1 ≤ x2) : gAux x2 ≤ gAux x1 := by
  unfold gAux
  have hd1 : (0:ℝ) < 1 + 0.3275911 * x1 := by nlinarith
  have hd2 : (0:ℝ) < 1 + 0.3275911 * x2 := by nlinarith
  have ht : 1 / (1 + 0.3275911 * x2) ≤ 1 / (1 + 0.3275911 * x1) :=
    one_div_le_one_div_of_le hd1 (by nlinarith)
  have ht2 : (0:ℝ) ≤ 1 / (1 + 0.3275911 * x2) := le_of_lt (by positivity)
  have hexp : Real.exp (-(x2 * x2)) ≤ Real.exp (-(x1 * x1)) := by
    apply Real.exp_le_exp.2
    nlinarith [mul_self_le_mul_self h0 h12]
  exact mul_le_mul (erfPoly_mono ht) hexp (Real.exp_nonneg _)
    (erfPoly_nonneg (le_trans ht2 ht))

theorem gAux_nonneg {x : ℝ} (h0 : 0 ≤ x) : 0 ≤ gAux x := by
  unfold gAux
  have hd : (0:ℝ) < 1 + 0.3275911 * x := by nlinarith
  exact mul_nonneg (erfPoly_nonneg (le_of_lt (by positivity))) (Real.exp_nonneg _)

theorem gAux_zero : gAux 0 = 0.999999999 := by
  unfold gAux
  norm_num [erfPoly]

theorem gAux_le_one {x : ℝ} (h0 : 0 ≤ x) : gAux x ≤ 1 := by
  have := gAux_antitone le_rfl h0
  rw [gAux_zero] at this
  linarith

theorem normalCdf_eq (z : ℝ) :
    normalCdf z = 0.5 * (1 + (if z < 0 then (-1:ℝ) else 1)
      * (1 - gAux (|z| / Real.sqrt 2))) := by
  simp only [normalCdf, gAux]

theorem sqrt_two_pos' : (0:ℝ) < Real.sqrt 2 := Real.sqrt_pos.2 (by norm_num)

theorem normalCdf_mono {z1 z2 : ℝ} (h12 : z1 ≤ z2) : normalCdf z1 ≤ normalCdf z2 := by
  rw [normalCdf_eq, normalCdf_eq]
  have hx1 : (0:ℝ) ≤ |z1| / Real.sqrt 2 := div_nonneg (abs_nonneg _) (le_of_lt sqrt_two_pos')
  have hx2 : (0:ℝ) ≤ |z2| / Real.sqrt 2 := div_nonneg (abs_nonneg _) (le_of_lt sqrt_two_pos')
  by_cases h1 : z1 < 0
  · by_cases h2 : z2 < 0
    · rw [if_pos h1, if_pos h2]
      have habs : |z2| ≤ |z1| := by
        rw [abs_of_neg h1, abs_of_neg h2]; linarith
      have := gAux_antitone hx2 ((div_le_div_right sqrt_two_pos').2 habs)
      linarith
    · rw [if_pos h1, if_neg h2]
      have g1 := gAux_le_one hx1
      have g2 := gAux_le_one hx2
      have g1n := gAux_nonneg hx1
      have g2n := gAux_nonneg hx2
      linarith
  · rw [if_neg h1, if_neg (by linarith : ¬ z2 < 0)]
    have habs : |z1| ≤ |z2| := by
      rw [abs_of_nonneg (by linarith : (0:ℝ) ≤ z1), abs_of_nonneg (by linarith : (0:ℝ) ≤ z2)]
      exact h12
    have := gAux_antitone hx1 ((div_le_div_right sqrt_two_pos').2 habs)
    linarith

/-- Every branch of `probabilityFromStats` yields a raw score in `[0, 1]`
(branch values: 0, 0, a clamp, a clamp, 0.85 or 0.15). -/
theorem rawScore_nonneg (marks : JSNum) (college : CollegeSummary) :
    0 ≤ (probabilityFromStats marks college).rawScore := by
  simp only [probabilityFromStats]
  split_ifs <;>
    simp only [ProbabilityDetails.rawScore] <;>
    first
      | exact clamp01_nonneg _
      | norm_num

theorem rawScore_le_one (marks : JSNum) (college : CollegeSummary) :
    (probabilityFromStats marks college).rawScore ≤ 1 := by
  simp only [probabilityFromStats]
  split_ifs <;>
    simp only [ProbabilityDetails.rawScore] <;>
    first
      | exact clamp01_le_one _
      | norm_num

/-! ### Branch equations of `probabilityFromStats` -/

theorem pfs_branch1 (marks : JSNum) (college : CollegeSummary)
    (h : ¬ marks.isFinite ∨ ¬ college.marks_mean.isFinite) :
    probabilityFromStats marks college =
      ⟨Method.fallback, marks, college.marks_mean, college.marks_std,
        college.marks_min, college.marks_max, none, 0⟩ := by
  simp only [probabilityFromStats]
  rw [if_pos h]

theorem pfs_branch2 (marks : JSNum) (college : CollegeSummary)
    (h1 : ¬ (¬ marks.isFinite ∨ ¬ college.marks_mean.isFinite))
    (h2 : college.marks_min.isFinite ∧ marks.valD < college.marks_min.valD) :
    probabilityFromStats marks college =
      ⟨Method.fallback, marks, college.marks_mean, college.marks_std,
        college.marks_min, college.marks_max, none, 0⟩ := by
  simp only [probabilityFromStats]
  rw [if_neg h1, if_pos h2]

theorem pfs_branch3 (marks : JSNum) (college : CollegeSummary)
    (h1 : ¬ (¬ marks.isFinite ∨ ¬ college.marks_mean.isFinite))
    (h2 : ¬ (college.marks_min.isFinite ∧ marks.valD < college.marks_min.valD))
    (h3 : college.marks_std.isFinite ∧ 0 < college.marks_std.valD) :
    probabilityFromStats marks college =
      ⟨Method.normal_cdf, marks, college.marks_mean, college.marks_std,
        college.marks_min, college.marks_max,
        some ((marks.valD - college.marks_mean.valD) / college.marks_std.valD),
        clamp (normalCdf ((marks.valD - college.marks_mean.valD) / college.marks_std.valD))
          0 1⟩ := by
  simp only [probabilityFromStats]
  rw [if_neg h1, if_neg h2, if_pos h3]

theorem pfs_branch4 (marks : JSNum) (college : CollegeSummary)
    (h1 : ¬ (¬ marks.isFinite ∨ ¬ college.marks_mean.isFinite))
    (h2 : ¬ (college.marks_min.isFinite ∧ marks.valD < college.marks_min.valD))
    (h3 : ¬ (college.marks_std.isFinite ∧ 0 < college.marks_std.valD))
    (h4 : college.marks_min.isFinite ∧ college.marks_max.isFinite ∧
      college.marks_min.valD < college.marks_max.valD) :
    probabilityFromStats marks college =
      ⟨Method.min_max_linear, marks, college.marks_mean, college.marks_std,
        college.marks_min, college.marks_max, none,
        clamp ((marks.valD - college.marks_min.valD) /
          (college.marks_max.valD - college.marks_min.valD)) 0 1⟩ := by
  simp only [probabilityFromStats]
  rw [if_neg h1, if_neg h2, if_neg h3, if_pos h4]

theorem pfs_branch5 (marks : JSNum) (college : CollegeSummary)
    (h1 : ¬ (¬ marks.isFinite ∨ ¬ college.marks_mean.isFinite))
    (h2 : ¬ (college.marks_min.isFinite ∧ marks.valD < college.marks_min.valD))
    (h3 : ¬ (college.marks_std.isFinite ∧ 0 < college.marks_std.valD))
    (h4 : ¬ (college.marks_min.isFinite ∧ college.marks_max.isFinite ∧
      college.marks_min.valD < college.marks_max.valD)) :
    probabilityFromStats marks college =
      ⟨Method.fallback, marks, college.marks_mean, college.marks_std,
        college.marks_min, college.marks_max, none,
        if college.marks_mean.valD ≤ marks.valD then 0.85 else 0.15⟩ := by
  simp only [probabilityFromStats]
  rw [if_neg h1, if_neg h2, if_neg h3, if_neg h4]

/-- C1: for every score and summary, `probabilityFromStats` returns the result
of the first matching branch in the fixed five-branch order: (1) non-finite
score or marks mean → fallback, raw score 0, z-score null; (2) else score
strictly below a finite marks min → fallback, raw score 0 (so this branch does
not fire when the score equals the min, and with positive finite std the
method is then the normal CDF); (3) else finite positive std → normal CDF of
the z-score `(score − mean)/std`, clamped to `[0,1]`; (4) else finite min and
max with max > min → the clamped linear ratio; (5) else the 0.85/0.15
fallback according to score ≥ mean. -/
theorem probabilityFromStats_branch_order (marks : JSNum) (college : CollegeSummary) :
    (¬ marks.isFinite ∨ ¬ college.marks_mean.isFinite →
      probabilityFromStats marks college =
        ⟨Method.fallback, marks, college.marks_mean, college.marks_std,
          college.marks_min, college.marks_max, none, 0⟩) ∧
    (marks.isFinite → college.marks_mean.isFinite →
      college.marks_min.isFinite → marks.valD < college.marks_min.valD →
      probabilityFromStats marks college =
        ⟨Method.fallback, marks, college.marks_mean, college.marks_std,
          college.marks_min, college.marks_max, none, 0⟩) ∧
    (marks.isFinite → college.marks_mean.isFinite →
      ¬ (college.marks_min.isFinite ∧ marks.valD < college.marks_min.valD) →
      college.marks_std.isFinite → 0 < college.marks_std.valD →
      probabilityFromStats marks college =
        ⟨Method.normal_cdf, marks, college.marks_mean, college.marks_std,
          college.marks_min, college.marks_max,
          some ((marks.valD - college.marks_mean.valD) / college.marks_std.valD),
          clamp (normalCdf ((marks.valD - college.marks_mean.valD) /
            college.marks_std.valD)) 0 1⟩) ∧
    (marks.isFinite → college.marks_mean.isFinite →
      ¬ (college.marks_min.isFinite ∧ marks.valD < college.marks_min.valD) →
      ¬ (college.marks_std.isFinite ∧ 0 < college.marks_std.valD) →
      college.marks_min.isFinite → college.marks_max.isFinite →
      college.marks_min.valD < college.marks_max.valD →
      probabilityFromStats marks college =
        ⟨Method.min_max_linear, marks, college.marks_mean, college.marks_std,
          college.marks_min, college.marks_max, none,
          clamp ((marks.valD - college.marks_min.valD) /
            (college.marks_max.valD - college.marks_min.valD)) 0 1⟩) ∧
    (marks.isFinite → college.marks_mean.isFinite →
      ¬ (college.marks_min.isFinite ∧ marks.valD < college.marks_min.valD) →
      ¬ (college.marks_std.isFinite ∧ 0 < college.marks_std.valD) →
      ¬ (college.marks_min.isFinite ∧ college.marks_max.isFinite ∧
        college.marks_min.valD < college.marks_max.valD) →
      probabilityFromStats marks college =
        ⟨Method.fallback, marks, college.marks_mean, college.marks_std,
          college.marks_min, college.marks_max, none,
          if college.marks_mean.valD ≤ marks.valD then 0.85 else 0.15⟩) ∧
    (marks.isFinite → college.marks_mean.isFinite → college.marks_min.isFinite →
      marks.valD = college.marks_min.valD →
      college.marks_std.isFinite → 0 < college.marks_std.valD →
      (probabilityFromStats marks college).method = Method.normal_cdf) := by
  refine ⟨fun h => pfs_branch1 marks college h, ?_, ?_, ?_, ?_, ?_⟩
  · intro hm hmean hmin hlt
    exact pfs_branch2 marks college (by simp [hm, hmean]) ⟨hmin, hlt⟩
  · intro hm hmean h2 hstd hpos
    exact pfs_branch3 marks college (by simp [hm, hmean]) h2 ⟨hstd, hpos⟩
  · intro hm hmean h2 h3 hmin hmax hlt
    exact pfs_branch4 marks college (by simp [hm, hmean]) h2 h3 ⟨hmin, hmax, hlt⟩
  · intro hm hmean h2 h3 h4
    exact pfs_branch5 marks college (by simp [hm, hmean]) h2 h3 h4
  · intro hm hmean hmin heq hstd hpos
    rw [pfs_branch3 marks college (by simp [hm, hmean])
      (fun h => absurd h.2 (by rw [heq]; exact lt_irrefl _)) ⟨hstd, hpos⟩]

/-- C6: with a finite, strictly positive marks standard deviation, the raw
score of `probabilityFromStats` is monotonically non-decreasing in the
(finite) score. -/
theorem probabilityFromStats_score_monotone (college : CollegeSummary) (s1 s2 : ℝ)
    (hfin : college.marks_std.isFinite) (hpos : 0 < college.marks_std.valD)
    (h12 : s1 ≤ s2) :
    (probabilityFromStats (JSNum.num s1) college).rawScore ≤
      (probabilityFromStats (JSNum.num s2) college).rawScore := by
  by_cases hmean : college.marks_mean.isFinite
  · by_cases hfloor : college.marks_min.isFinite ∧ s1 < college.marks_min.valD
    · rw [pfs_branch2 (JSNum.num s1) college (by simp [hmean]) hfloor]
      exact rawScore_nonneg _ _
    · have hfloor2 : ¬ (college.marks_min.isFinite ∧
          (JSNum.num s2).valD < college.marks_min.valD) := by
        rintro ⟨hf, hlt⟩
        rw [valD_num] at hlt
        exact hfloor ⟨hf, lt_of_le_of_lt h12 hlt⟩
      rw [pfs_branch3 (JSNum.num s1) college (by simp [hmean]) hfloor ⟨hfin, hpos⟩,
        pfs_branch3 (JSNum.num s2) college (by simp [hmean]) hfloor2 ⟨hfin, hpos⟩]
      have hz : ((JSNum.num s1).valD - college.marks_mean.valD) / college.marks_std.valD ≤
          ((JSNum.num s2).valD - college.marks_mean.valD) / college.marks_std.valD := by
        rw [valD_num, valD_num]
        exact (div_le_div_iff_of_pos_right hpos).2
          (sub_le_sub_right h12 college.marks_mean.valD)
      exact clamp01_mono (normalCdf_mono hz)
  · rw [pfs_branch1 (JSNum.num s1) college (Or.inr hmean),
      pfs_branch1 (JSNum.num s2) college (Or.inr hmean)]

/-- Witness for C6 at a concrete input: `stdSummary` has finite std 1 > 0, and
the raw score at score 0 is at most the raw score at score 1. -/
theorem probabilityFromStats_score_monotone_witness :
    (stdSummary.marks_std.isFinite ∧ 0 < stdSummary.marks_std.valD ∧ (0:ℝ) ≤ 1) ∧
      (probabilityFromStats (JSNum.num 0) stdSummary).rawScore ≤
        (probabilityFromStats (JSNum.num 1) stdSummary).rawScore :=
  ⟨⟨by simp [stdSummary], by simp [stdSummary], by norm_num⟩,
    probabilityFromStats_score_monotone stdSummary 0 1
      (by simp [stdSummary]) (by simp [stdSummary]) (by norm_num)⟩

/-! ### The statistics aggregator -/

theorem aggregateMeanStd_nil : aggregateMeanStd [] = (0, 0) := rfl

theorem aggregateMeanStd_cons_filter (a : JSNum × JSNum) (l : List (JSNum × JSNum)) :
    aggregateMeanStd (a :: l) =
      (if h : (a :: l).filter isValidObs = [] then (0, 0)
      else
        let valid := (a :: l).filter isValidObs
        let n : ℝ := valid.length
        ((valid.map (fun p => p.1.valD)).sum / n,
          Real.sqrt (max 0
            ((valid.map (fun p => p.2.valD * p.2.valD + p.1.valD * p.1.valD)).sum / n -
              (valid.map (fun p => p.1.valD)).sum / n *
                ((valid.map (fun p => p.1.valD)).sum / n))))) := by
  rw [aggregateMeanStd]
  split_ifs with h
  · rfl
  · rfl

/-- Discarding the invalid pairs does not change the aggregate. -/
theorem aggregateMeanStd_filter (points : List (JSNum × JSNum)) :
    aggregateMeanStd points = aggregateMeanStd (points.filter isValidObs) := by
  cases points with
  | nil => rfl
  | cons a l =>
    cases hv : (a :: l).filter isValidObs with
    | nil =>
      rw [aggregateMeanStd_cons_filter, dif_pos hv]
      rfl
    | cons b m =>
      have hself : (b :: m).filter isValidObs = b :: m :=
        List.filter_eq_self.mpr (fun x hx => List.of_mem_filter (p := isValidObs) (hv ▸ hx))
      rw [aggregateMeanStd_cons_filter, dif_neg (by simp [hv]), hv,
        aggregateMeanStd_cons_filter, dif_neg (by simp [hself]), hself]

/-- C7: the aggregator returns `(0, 0)` on an empty input and when every pair
is invalid (non-finite mean or std, or negative std); invalid pairs are
silently discarded, so the aggregate of any input equals the aggregate of its
valid sublist. -/
theorem aggregateMeanStd_ignores_invalid (points : List (JSNum × JSNum)) :
    aggregateMeanStd [] = (0, 0) ∧
    ((∀ p ∈ points, isValidObs p = false) → aggregateMeanStd points = (0, 0)) ∧
    aggregateMeanStd points = aggregateMeanStd (points.filter isValidObs) := by
  refine ⟨rfl, ?_, aggregateMeanStd_filter points⟩
  intro hall
  have hnil : points.filter isValidObs = [] := by
    rw [List.filter_eq_nil_iff]
    intro a ha
    simp [hall a ha]
  rw [aggregateMeanStd_filter points, hnil, aggregateMeanStd_nil]

/-- Witness for C7: a list holding a single invalid pair (NaN mean)
aggregates to `(0, 0)`. -/
theorem aggregateMeanStd_ignores_invalid_witness :
    aggregateMeanStd [(JSNum.nan, JSNum.num 1)] = (0, 0) :=
  (aggregateMeanStd_ignores_invalid [(JSNum.nan, JSNum.num 1)]).2.1
    (by intro p hp; rw [List.mem_singleton.1 hp]; rfl)

/-- C8: the aggregated standard deviation is never negative (the variance
estimate is floored at 0 before the square root); and on a nonempty all-valid
input the aggregated mean lies between any common lower and upper bound of
the input means — hence within `[min, max]` of the input means, in particular
when every input std is 0. -/
theorem aggregateMeanStd_bounds (points : List (JSNum × JSNum)) (m M : ℝ) :
    0 ≤ (aggregateMeanStd points).2 ∧
    (points ≠ [] → (∀ p ∈ points, isValidObs p = true) →
      (∀ p ∈ points, m ≤ p.1.valD ∧ p.1.valD ≤ M) →
      m ≤ (aggregateMeanStd points).1 ∧ (aggregateMeanStd points).1 ≤ M) := by
  constructor
  · cases points with
    | nil =>
      rw [aggregateMeanStd_nil]
    | cons a l =>
      rw [aggregateMeanStd_cons_filter]
      split_ifs with h
      · exact le_refl 0
      · exact Real.sqrt_nonneg _
  · intro hne hvalid hbounds
    cases points with
    | nil => exact absurd rfl hne
    | cons a l =>
      have hself : (a :: l).filter isValidObs = a :: l := List.filter_eq_self.mpr hvalid
      rw [aggregateMeanStd_cons_filter, dif_neg (by simp [hself]), hself]
      have hlen : (0:ℝ) < ((a :: l).length : ℝ) := by
        have := List.length_pos_of_ne_nil (List.cons_ne_nil a l)
        exact_mod_cast this
      have hmap : ((a :: l).map (fun p => p.1.valD)).length = (a :: l).length :=
        List.length_map _ _
      have hub : ((a :: l).map (fun p => p.1.valD)).sum ≤ ((a :: l).length : ℝ) * M := by
        have := List.sum_le_card_nsmul ((a :: l).map (fun p => p.1.valD)) M ?_
        · rw [hmap] at this
          simpa [nsmul_eq_mul] using this
        · intro x hx
          rcases List.mem_map.1 hx with ⟨p, hp2, rfl⟩
          exact (hbounds p hp2).2
      have hlb : ((a :: l).length : ℝ) * m ≤ ((a :: l).map (fun p => p.1.valD)).sum := by
        have := List.card_nsmul_le_sum ((a :: l).map (fun p => p.1.valD)) m ?_
        · rw [hmap] at this
          simpa [nsmul_eq_mul] using this
        · intro x hx
          rcases List.mem_map.1 hx with ⟨p, hp2, rfl⟩
          exact (hbounds p hp2).1
      constructor
      · rw [le_div_iff₀ hlen]
        linarith
      · rw [div_le_iff₀ hlen]
        linarith

/-- Witness for C8 at a concrete input: a single valid pair with mean 3 and
std 0; the aggregate mean is bounded by 3 on both sides. -/
theorem aggregateMeanStd_bounds_witness :
    (3:ℝ) ≤ (aggregateMeanStd [(JSNum.num 3, JSNum.num 0)]).1 ∧
      (aggregateMeanStd [(JSNum.num 3, JSNum.num 0)]).1 ≤ 3 :=
  (aggregateMeanStd_bounds [(JSNum.num 3, JSNum.num 0)] 3 3).2
    (List.cons_ne_nil _ _)
    (by
      intro p hp
      rw [List.mem_singleton.1 hp]
      simp [isValidObs])
    (by
      intro p hp
      rw [List.mem_singleton.1 hp]
      norm_num)

/-! ### Membership through the ranking pipeline -/

/-- A value of the dedup map after one step is either an old value or the
item just processed. -/
theorem dedupStep_values (acc : List (String × PredictedCollege)) (item : PredictedCollege) :
    ∀ p ∈ (dedupStep acc item).map Prod.snd, p ∈ acc.map Prod.snd ∨ p = item := by
  induction acc with
  | nil =>
    intro p hp
    simp only [dedupStep, List.map_cons, List.map_nil, List.mem_singleton] at hp
    exact Or.inr hp
  | cons kc rest ih =>
    obtain ⟨k, c⟩ := kc
    intro p hp
    rw [dedupStep] at hp
    split_ifs at hp with h1 h2
    · rw [List.map_cons, List.mem_cons] at hp
      rcases hp with h | h
      · exact Or.inr h
      · exact Or.inl (by rw [List.map_cons]; exact List.mem_cons_of_mem _ h)
    · rw [List.map_cons, List.mem_cons] at hp
      rcases hp with h | h
      · exact Or.inl (by rw [List.map_cons, h]; exact List.mem_cons_self _ _)
      · exact Or.inl (by rw [List.map_cons]; exact List.mem_cons_of_mem _ h)
    · rw [List.map_cons, List.mem_cons] at hp
      rcases hp with h | h
      · exact Or.inl (by rw [List.map_cons, h]; exact List.mem_cons_self _ _)
      · rcases ih p h with h3 | h3
        · exact Or.inl (by rw [List.map_cons]; exact List.mem_cons_of_mem _ h3)
        · exact Or.inr h3

/-- Every value held by the dedup map came from the processed list or from
the starting map. -/
theorem foldl_dedupStep_values (l : List PredictedCollege)
    (acc : List (String × PredictedCollege)) :
    ∀ p ∈ (l.foldl dedupStep acc).map Prod.snd, p ∈ acc.map Prod.snd ∨ p ∈ l := by
  induction l generalizing acc with
  | nil =>
    intro p hp
    exact Or.inl hp
  | cons x xs ih =>
    intro p hp
    rw [List.foldl_cons] at hp
    rcases ih (dedupStep acc x) p hp with h | h
    · rcases dedupStep_values acc x p h with h2 | h2
      · exact Or.inl h2
      · exact Or.inr (by simp [h2])
    · exact Or.inr (List.mem_cons_of_mem _ h)

theorem mem_bestByCollege (l : List PredictedCollege) (p : PredictedCollege)
    (hp : p ∈ (bestByCollege l).map Prod.snd) : p ∈ l := by
  rcases foldl_dedupStep_values l [] p hp with h | h
  · simp at h
  · exact h

theorem mem_predictColleges_iff (marks : JSNum) (filters : PredictorFilters)
    (data : List CollegeSummary) (r : PredictedCollege) :
    r ∈ predictColleges marks filters data ↔
      r ∈ (bestByCollege (rankedCandidates marks filters data)).map Prod.snd :=
  (List.perm_insertionSort finalLe _).mem_iff

theorem mem_rankedCandidates (marks : JSNum) (filters : PredictorFilters)
    (data : List CollegeSummary) (r : PredictedCollege)
    (hr : r ∈ rankedCandidates marks filters data) :
    ∃ c ∈ consolidateAcrossRounds data,
      passesFilters filters c.toCollegeSummary = true ∧ r = mkPredicted marks c ∧
        0.1 ≤ r.probability := by
  simp only [rankedCandidates, List.mem_filter, List.mem_map] at hr
  obtain ⟨⟨c, hc, rfl⟩, hprob⟩ := hr
  exact ⟨c, hc.1, hc.2, rfl, by simpa using hprob⟩

/-- Everything `predictColleges` returns is a prediction of a consolidated
record that passed the filters and the raw-score threshold. -/
theorem mem_predictColleges_sound (marks : JSNum) (filters : PredictorFilters)
    (data : List CollegeSummary) (r : PredictedCollege)
    (hr : r ∈ predictColleges marks filters data) :
    ∃ c ∈ consolidateAcrossRounds data,
      passesFilters filters c.toCollegeSummary = true ∧ r = mkPredicted marks c ∧
        0.1 ≤ r.probability :=
  mem_rankedCandidates marks filters data r
    (mem_bestByCollege _ r ((mem_predictColleges_iff marks filters data r).1 hr))

/-! ### Filter semantics -/

/-- C10: for every selected filter value, including non-blank ones,
`matchOptionalFilter` accepts whenever the record's field is falsy — missing
(undefined) or the empty string — so a consolidated record with an empty
`course`, `community`, `category`, `quota` or `college_type` field passes
that filter regardless of the selected value. -/
theorem matchOptionalFilter_falsy (selected : String) (c : ConsolidatedCollege)
    (filters : PredictorFilters) :
    matchOptionalFilter none selected = true ∧
    matchOptionalFilter (some "") selected = true ∧
    (c.course = "" → matchOptionalFilter (some c.course) filters.course = true) ∧
    (c.community = "" → matchOptionalFilter (some c.community) filters.community = true) ∧
    (c.category = "" → matchOptionalFilter (some c.category) filters.category = true) ∧
    (c.quota = "" → matchOptionalFilter (some c.quota) filters.quota = true) ∧
    (c.college_type = "" → matchOptionalFilter (some c.college_type) filters.collegeType
      = true) := by
  have hnone : ∀ s : String, matchOptionalFilter none s = true := by
    intro s
    simp only [matchOptionalFilter]
    split_ifs <;> rfl
  have hempty : ∀ s : String, matchOptionalFilter (some "") s = true := by
    intro s
    simp only [matchOptionalFilter]
    split_ifs <;> rfl
  refine ⟨hnone selected, hempty selected, ?_, ?_, ?_, ?_, ?_⟩ <;>
    · intro h
      rw [h]
      apply hempty

/-- Witness for C10: an empty field passes a concrete non-blank filter. -/
theorem matchOptionalFilter_falsy_witness :
    matchOptionalFilter (some "") "General" = true :=
  (matchOptionalFilter_falsy "General" ⟨default, []⟩ ⟨"", "", "", "", ""⟩).2.1

/-- C4 counterexample: with the non-blank selected value `"x"` and the
present (but empty) field value `""`, the filter matches even though the
trimmed lower-cased field differs from the trimmed lower-cased selection —
so a present field is not always compared by equality. -/
theorem matchOptionalFilter_empty_field_cex :
    matchOptionalFilter (some "") "x" = true ∧
      ¬ (trimLower "" = trimLower "x") := by
  constructor
  · rfl
  · decide

/-- C4 (amended): a blank (empty after trimming) filter value matches every
record; a record whose field is missing — or, beyond the claim's wording, is
the empty string — matches every filter value; otherwise (field present and
nonempty, filter non-blank) the record matches exactly when the trimmed
lower-cased field equals the trimmed lower-cased filter value; and
`predictColleges` keeps only consolidated records matching all five criteria
simultaneously. -/
theorem matchOptionalFilter_semantics (v selected : String) (marks : JSNum)
    (filters : PredictorFilters) (data : List CollegeSummary) :
    (trimLower selected = "" → ∀ w : Option String,
      matchOptionalFilter w selected = true) ∧
    (matchOptionalFilter none selected = true) ∧
    (matchOptionalFilter (some "") selected = true) ∧
    (v ≠ "" → trimLower selected ≠ "" →
      (matchOptionalFilter (some v) selected = true ↔
        trimLower v = trimLower selected)) ∧
    (∀ r ∈ predictColleges marks filters data, ∃ c ∈ consolidateAcrossRounds data,
      (matchOptionalFilter (some c.course) filters.course &&
       matchOptionalFilter (some c.community) filters.community &&
       matchOptionalFilter (some c.category) filters.category &&
       matchOptionalFilter (some c.quota) filters.quota &&
       matchOptionalFilter (some c.college_type) filters.collegeType) = true ∧
      r = mkPredicted marks c) := by
  refine ⟨?_, ?_, ?_, ?_, ?_⟩
  · intro hblank w
    simp only [matchOptionalFilter]
    rw [if_pos hblank]
  · simp only [matchOptionalFilter]
    split_ifs <;> rfl
  · simp only [matchOptionalFilter]
    split_ifs <;> rfl
  · intro hv hsel
    simp only [matchOptionalFilter]
    rw [if_neg hsel, if_neg hv]
    exact decide_eq_true_iff
  · intro r hr
    obtain ⟨c, hc, hpass, hrc, _⟩ := mem_predictColleges_sound marks filters data r hr
    exact ⟨c, hc, hpass, hrc⟩

/-- Witness for C4 at concrete inputs: a whitespace-only filter matches a
mismatched field, and a present nonempty field matches exactly its own
(case-insensitive) value. -/
theorem matchOptionalFilter_semantics_witness :
    matchOptionalFilter (some "abc") " " = true ∧
      (matchOptionalFilter (some "ABC ") "abc" = true ↔
        trimLower "ABC " = trimLower "abc") :=
  ⟨(matchOptionalFilter_semantics "abc" " " JSNum.nan ⟨"", "", "", "", ""⟩ []).1
      (by decide) (some "abc"),
    (matchOptionalFilter_semantics "ABC " "abc" JSNum.nan ⟨"", "", "", "", ""⟩ []).2.2.2.1
      (by decide) (by decide)⟩

/-- C5: the raw score of `probabilityFromStats` always lies in `[0, 1]`, and
consequently every record `predictColleges` returns has its probability in
`[0, 1]`. -/
theorem probability_in_unit_interval (marks : JSNum) (college : CollegeSummary)
    (filters : PredictorFilters) (data : List CollegeSummary) :
    (0 ≤ (probabilityFromStats marks college).rawScore ∧
      (probabilityFromStats marks college).rawScore ≤ 1) ∧
    (∀ r ∈ predictColleges marks filters data, 0 ≤ r.probability ∧ r.probability ≤ 1) := by
  refine ⟨⟨rawScore_nonneg marks college, rawScore_le_one marks college⟩, ?_⟩
  intro r hr
  obtain ⟨c, _, _, rfl, _⟩ := mem_predictColleges_sound marks filters data r hr
  exact ⟨rawScore_nonneg marks c.toCollegeSummary, rawScore_le_one marks c.toCollegeSummary⟩

/-! ### Consolidation: group structure and true min/max bounds -/

theorem jsMin2_posInf (x : JSNum) : jsMin2 JSNum.posInf x = x := by
  cases x <;> rfl

theorem jsMax2_negInf (x : JSNum) : jsMax2 JSNum.negInf x = x := by
  cases x <;> rfl

theorem foldl_jsMin2_finite (xs : List JSNum) :
    ∀ a : ℝ, (∀ y ∈ xs, y.isFinite) →
    ∃ r : ℝ, xs.foldl jsMin2 (JSNum.num a) = JSNum.num r ∧ r ≤ a ∧
      (∀ y ∈ xs, r ≤ y.valD) ∧ (r = a ∨ JSNum.num r ∈ xs) := by
  induction xs with
  | nil =>
    intro a _
    exact ⟨a, rfl, le_refl a, by simp, Or.inl rfl⟩
  | cons y ys ih =>
    intro a hf
    have hy : y.isFinite := hf y (List.mem_cons_self y ys)
    cases y with
    | num b =>
      obtain ⟨r, heq, hra, hall, hmem⟩ :=
        ih (min a b) (fun z hz => hf z (List.mem_cons_of_mem _ hz))
      refine ⟨r, ?_, le_trans hra (min_le_left a b), ?_, ?_⟩
      · rw [List.foldl_cons]
        exact heq
      · intro z hz
        rcases List.mem_cons.1 hz with h | h
        · rw [h, valD_num]
          exact le_trans hra (min_le_right a b)
        · exact hall z h
      · rcases hmem with h | h
        · rcases min_cases a b with ⟨hm, _⟩ | ⟨hm, _⟩
          · exact Or.inl (h.trans hm)
          · exact Or.inr (by rw [h, hm]; exact List.mem_cons_self _ _)
        · exact Or.inr (List.mem_cons_of_mem _ h)
    | nan => simp [JSNum.isFinite] at hy
    | posInf => simp [JSNum.isFinite] at hy
    | negInf => simp [JSNum.isFinite] at hy

theorem foldl_jsMax2_finite (xs : List JSNum) :
    ∀ a : ℝ, (∀ y ∈ xs, y.isFinite) →
    ∃ r : ℝ, xs.foldl jsMax2 (JSNum.num a) = JSNum.num r ∧ a ≤ r ∧
      (∀ y ∈ xs, y.valD ≤ r) ∧ (r = a ∨ JSNum.num r ∈ xs) := by
  induction xs with
  | nil =>
    intro a _
    exact ⟨a, rfl, le_refl a, by simp, Or.inl rfl⟩
  | cons y ys ih =>
    intro a hf
    have hy : y.isFinite := hf y (List.mem_cons_self y ys)
    cases y with
    | num b =>
      obtain ⟨r, heq, hra, hall, hmem⟩ :=
        ih (max a b) (fun z hz => hf z (List.mem_cons_of_mem _ hz))
      refine ⟨r, ?_, le_trans (le_max_left a b) hra, ?_, ?_⟩
      · rw [List.foldl_cons]
        exact heq
      · intro z hz
        rcases List.mem_cons.1 hz with h | h
        · rw [h, valD_num]
          exact le_trans (le_max_right a b) hra
        · exact hall z h
      · rcases hmem with h | h
        · rcases max_cases a b with ⟨hm, _⟩ | ⟨hm, _⟩
          · exact Or.inl (h.trans hm)
          · exact Or.inr (by rw [h, hm]; exact List.mem_cons_self _ _)
        · exact Or.inr (List.mem_cons_of_mem _ h)
    | nan => simp [JSNum.isFinite] at hy
    | posInf => simp [JSNum.isFinite] at hy
    | negInf => simp [JSNum.isFinite] at hy

theorem listJsMin_finite (l : List JSNum) (hne : l ≠ []) (hf : ∀ x ∈ l, x.isFinite) :
    (∀ x ∈ l, (listJsMin l).valD ≤ x.valD) ∧ listJsMin l ∈ l := by
  cases l with
  | nil => exact absurd rfl hne
  | cons x xs =>
    have hx : x.isFinite := hf x (List.mem_cons_self x xs)
    cases x with
    | num a =>
      obtain ⟨r, heq, hra, hall, hmem⟩ :=
        foldl_jsMin2_finite xs a (fun z hz => hf z (List.mem_cons_of_mem _ hz))
      have hlist : listJsMin (JSNum.num a :: xs) = JSNum.num r := by
        rw [listJsMin, List.foldl_cons, jsMin2_posInf]
        exact heq
      constructor
      · intro z hz
        rw [hlist, valD_num]
        rcases List.mem_cons.1 hz with h | h
        · rw [h, valD_num]
          exact hra
        · exact hall z h
      · rw [hlist]
        rcases hmem with h | h
        · rw [h]
          exact List.mem_cons_self _ _
        · exact List.mem_cons_of_mem _ h
    | nan => simp [JSNum.isFinite] at hx
    | posInf => simp [JSNum.isFinite] at hx
    | negInf => simp [JSNum.isFinite] at hx

theorem listJsMax_finite (l : List JSNum) (hne : l ≠ []) (hf : ∀ x ∈ l, x.isFinite) :
    (∀ x ∈ l, x.valD ≤ (listJsMax l).valD) ∧ listJsMax l ∈ l := by
  cases l with
  | nil => exact absurd rfl hne
  | cons x xs =>
    have hx : x.isFinite := hf x (List.mem_cons_self x xs)
    cases x with
    | num a =>
      obtain ⟨r, heq, hra, hall, hmem⟩ :=
        foldl_jsMax2_finite xs a (fun z hz => hf z (List.mem_cons_of_mem _ hz))
      have hlist : listJsMax (JSNum.num a :: xs) = JSNum.num r := by
        rw [listJsMax, List.foldl_cons, jsMax2_negInf]
        exact heq
      constructor
      · intro z hz
        rw [hlist, valD_num]
        rcases List.mem_cons.1 hz with h | h
        · rw [h, valD_num]
          exact hra
        · exact hall z h
      · rw [hlist]
        rcases hmem with h | h
        · rw [h]
          exact List.mem_cons_self _ _
        · exact List.mem_cons_of_mem _ h
    | nan => simp [JSNum.isFinite] at hx
    | posInf => simp [JSNum.isFinite] at hx
    | negInf => simp [JSNum.isFinite] at hx

theorem addToGroups_entries_nonempty (k : String × ℝ) (item : CollegeSummary)
    (gs : List ((String × ℝ) × List CollegeSummary))
    (h : ∀ e ∈ gs, e.2 ≠ []) :
    ∀ e ∈ addToGroups k item gs, e.2 ≠ [] := by
  induction gs with
  | nil =>
    intro e he
    rw [addToGroups] at he
    rw [List.mem_singleton.1 he]
    exact List.cons_ne_nil _ _
  | cons g rest ih =>
    obtain ⟨k2, l⟩ := g
    intro e he
    rw [addToGroups] at he
    split_ifs at he with h1
    · rcases List.mem_cons.1 he with h2 | h2
      · rw [h2]
        intro hcontra
        exact absurd (List.append_eq_nil.1 hcontra).2 (List.cons_ne_nil _ _)
      · exact h e (List.mem_cons_of_mem _ h2)
    · rcases List.mem_cons.1 he with h2 | h2
      · rw [h2]
        exact h (k2, l) (List.mem_cons_self _ _)
      · exact ih (fun e2 he2 => h e2 (List.mem_cons_of_mem _ he2)) e h2

theorem groupByKey_entries_nonempty (data : List CollegeSummary) :
    ∀ e ∈ groupByKey data, e.2 ≠ [] := by
  rw [groupByKey]
  generalize hacc : ([] : List ((String × ℝ) × List CollegeSummary)) = acc
  have hbase : ∀ e ∈ acc, e.2 ≠ [] := by
    rw [← hacc]
    intro e he
    simp at he
  clear hacc
  induction data generalizing acc with
  | nil => exact hbase
  | cons item rest ih =>
    rw [List.foldl_cons]
    exact ih _ (addToGroups_entries_nonempty _ item acc hbase)

/-- C9: every consolidated summary's rank and marks min/max fields are the
elementwise `Math.min`/`Math.max` over its constituent records' raw bound
fields (not re-derived from the aggregated distribution); when those fields
are (finite) numbers, the consolidated bound is attained by a constituent and
bounds every constituent — never narrower. -/
theorem consolidateAcrossRounds_bounds (data : List CollegeSummary) :
    ∀ g ∈ consolidateAcrossRounds data,
      g.roundSummaries ≠ [] ∧
      g.rank_min = listJsMin (g.roundSummaries.map (fun r => r.rank_min)) ∧
      g.rank_max = listJsMax (g.roundSummaries.map (fun r => r.rank_max)) ∧
      g.marks_min = listJsMin (g.roundSummaries.map (fun r => r.marks_min)) ∧
      g.marks_max = listJsMax (g.roundSummaries.map (fun r => r.marks_max)) ∧
      ((∀ r ∈ g.roundSummaries, r.rank_min.isFinite ∧ r.rank_max.isFinite ∧
          r.marks_min.isFinite ∧ r.marks_max.isFinite) →
        (∀ r ∈ g.roundSummaries,
          g.rank_min.valD ≤ r.rank_min.valD ∧ r.rank_max.valD ≤ g.rank_max.valD ∧
          g.marks_min.valD ≤ r.marks_min.valD ∧ r.marks_max.valD ≤ g.marks_max.valD) ∧
        (∃ r ∈ g.roundSummaries, g.rank_min = r.rank_min) ∧
        (∃ r ∈ g.roundSummaries, g.rank_max = r.rank_max) ∧
        (∃ r ∈ g.roundSummaries, g.marks_min = r.marks_min) ∧
        (∃ r ∈ g.roundSummaries, g.marks_max = r.marks_max)) := by
  intro g hg
  rw [consolidateAcrossRounds] at hg
  obtain ⟨e, he, rfl⟩ := List.mem_map.1 hg
  have hne : e.2 ≠ [] := groupByKey_entries_nonempty data e he
  have hrs : (consolidateGroup e.2).roundSummaries = e.2 := rfl
  have hmapne : ∀ f : CollegeSummary → JSNum, e.2.map f ≠ [] := by
    intro f hcontra
    exact hne (List.map_eq_nil.1 hcontra)
  refine ⟨hrs ▸ hne, rfl, rfl, rfl, rfl, ?_⟩
  intro hfin
  rw [hrs] at hfin
  have hminr := listJsMin_finite (e.2.map (fun r => r.rank_min)) (hmapne _)
    (by
      intro x hx
      obtain ⟨r, hr, rfl⟩ := List.mem_map.1 hx
      exact (hfin r hr).1)
  have hmaxr := listJsMax_finite (e.2.map (fun r => r.rank_max)) (hmapne _)
    (by
      intro x hx
      obtain ⟨r, hr, rfl⟩ := List.mem_map.1 hx
      exact (hfin r hr).2.1)
  have hminm := listJsMin_finite (e.2.map (fun r => r.marks_min)) (hmapne _)
    (by
      intro x hx
      obtain ⟨r, hr, rfl⟩ := List.mem_map.1 hx
      exact (hfin r hr).2.2.1)
  have hmaxm := listJsMax_finite (e.2.map (fun r => r.marks_max)) (hmapne _)
    (by
      intro x hx
      obtain ⟨r, hr, rfl⟩ := List.mem_map.1 hx
      exact (hfin r hr).2.2.2)
  refine ⟨?_, ?_, ?_, ?_, ?_⟩
  · intro r hr
    rw [hrs] at hr
    exact ⟨hminr.1 r.rank_min (List.mem_map_of_mem _ hr),
      hmaxr.1 r.rank_max (List.mem_map_of_mem _ hr),
      hminm.1 r.marks_min (List.mem_map_of_mem _ hr),
      hmaxm.1 r.marks_max (List.mem_map_of_mem _ hr)⟩
  · obtain ⟨r, hr, hx⟩ := List.mem_map.1 hminr.2
    exact ⟨r, hrs ▸ hr, hx.symm⟩
  · obtain ⟨r, hr, hx⟩ := List.mem_map.1 hmaxr.2
    exact ⟨r, hrs ▸ hr, hx.symm⟩
  · obtain ⟨r, hr, hx⟩ := List.mem_map.1 hminm.2
    exact ⟨r, hrs ▸ hr, hx.symm⟩
  · obtain ⟨r, hr, hx⟩ := List.mem_map.1 hmaxm.2
    exact ⟨r, hrs ▸ hr, hx.symm⟩

/-- Witness for C9 at a concrete input: the one group consolidated from a
single summary has a nonempty constituent list. -/
theorem consolidateAcrossRounds_bounds_witness :
    (consolidateGroup [stdSummary]).roundSummaries ≠ [] :=
  (consolidateAcrossRounds_bounds [stdSummary] (consolidateGroup [stdSummary])
    (List.mem_singleton.mpr rfl)).1

/-! ### The round estimator -/

theorem find?_orderedInsert (p : (String × ℝ) → Bool) (x : String × ℝ) :
    ∀ s : List (String × ℝ), s.Sorted roundLe →
    (s.orderedInsert roundLe x).find? p =
      (match s.find? p with
        | none => if p x then some x else none
        | some y =>
          if p x && decide (roundOrder x.1 ≤ roundOrder y.1) then some x else some y) := by
  intro s
  induction s with
  | nil =>
    intro _
    cases hpx : p x <;> simp [List.orderedInsert, List.find?, hpx]
  | cons z s' ih =>
    intro hs
    have hsz : ∀ b ∈ s', roundLe z b := List.rel_of_sorted_cons hs
    have hs' : s'.Sorted roundLe := (List.sorted_cons.1 hs).2
    by_cases hxz : roundLe x z
    · rw [List.orderedInsert, if_pos hxz]
      cases hpx : p x with
      | true =>
        rw [List.find?_cons_of_pos _ hpx]
        cases hy : (z :: s').find? p with
        | none => simp [hy]
        | some y =>
          have hmem : y ∈ z :: s' := List.mem_of_find?_eq_some hy
          have hzy : roundOrder z.1 ≤ roundOrder y.1 := by
            rcases List.mem_cons.1 hmem with h | h
            · rw [h]
            · exact hsz y h
          have hxy : roundOrder x.1 ≤ roundOrder y.1 := le_trans hxz hzy
          simp [hy, hpx, hxy]
      | false =>
        rw [List.find?_cons_of_neg _ (by simp [hpx])]
        cases hy : (z :: s').find? p with
        | none => simp [hy, hpx]
        | some y => simp [hy, hpx]
    · rw [List.orderedInsert, if_neg hxz]
      cases hpz : p z with
      | true =>
        rw [List.find?_cons_of_pos _ hpz, List.find?_cons_of_pos _ hpz]
        have hnot : ¬ roundOrder x.1 ≤ roundOrder z.1 := hxz
        simp [hnot]
      | false =>
        rw [List.find?_cons_of_neg _ (by simp [hpz]), List.find?_cons_of_neg _ (by simp [hpz])]
        exact ih hs'

theorem find?_insertionSort (p : (String × ℝ) → Bool) (l : List (String × ℝ)) :
    (l.insertionSort roundLe).find? p =
      firstMinBy (fun q => roundOrder q.1) (l.filter p) := by
  induction l with
  | nil => rfl
  | cons x xs ih =>
    rw [List.insertionSort,
      find?_orderedInsert p x _ (List.sorted_insertionSort roundLe xs), ih,
      List.filter_cons]
    cases hpx : p x with
    | false =>
      cases h : firstMinBy (fun q => roundOrder q.1) (xs.filter p) <;> simp [hpx, h]
    | true =>
      cases h : firstMinBy (fun q => roundOrder q.1) (xs.filter p) with
      | none => simp [hpx, h, firstMinBy]
      | some y =>
        by_cases hkey : roundOrder x.1 ≤ roundOrder y.1 <;>
          simp [hpx, h, firstMinBy, hkey]

theorem estimateAllotmentRound_eq_roundChoice (rounds : List CollegeSummary)
    (marks : JSNum) :
    estimateAllotmentRound rounds marks = roundChoice rounds marks := by
  simp only [estimateAllotmentRound, roundChoice]
  rw [find?_insertionSort, find?_insertionSort]

theorem firstDigitRun_none (cs : List Char) (h : ∀ c ∈ cs, c.isDigit = false) :
    firstDigitRun cs = none := by
  induction cs with
  | nil => rfl
  | cons c cs' ih =>
    rw [firstDigitRun, if_neg (by simp [h c (List.mem_cons_self c cs')])]
    exact ih (fun c2 h2 => h c2 (List.mem_cons_of_mem _ h2))

theorem roundOrder_no_digit (s : String) (h : ∀ c ∈ s.data, c.isDigit = false) :
    roundOrder s = 9007199254740991 := by
  rw [roundOrder, firstDigitRun_none s.data h]

/-- C3 (amended): `estimateAllotmentRound` considers the per-round raw scores
in the order of the first integer substring parsed from each label, earliest
input position first on ties, where a label with no parsable number carries
the sentinel ordinal 9007199254740991 (`Number.MAX_SAFE_INTEGER`, placing it
after rounds with smaller parsed numbers, though not after rounds parsing to
that value or larger); it returns the first label in that order with raw
score ≥ 0.5, else the first with raw score > 0, else `"Not likely"`. -/
theorem estimateAllotmentRound_spec (rounds : List CollegeSummary) (marks : JSNum) :
    estimateAllotmentRound rounds marks = roundChoice rounds marks ∧
    (∀ s : String, (∀ c ∈ s.data, c.isDigit = false) →
      roundOrder s = 9007199254740991) :=
  ⟨estimateAllotmentRound_eq_roundChoice rounds marks,
    fun s h => roundOrder_no_digit s h⟩

/-- C3 counterexample: the label `"Round 9007199254740992"` parses to 2^53,
one above the no-digit sentinel, so the digit-free label `"alpha"` sorts
before it; both rounds are strong (raw score 0.85 ≥ 0.5) at score 1, and the
code returns `"alpha"` — an unnumbered round is not placed after all numbered
rounds. -/
theorem estimateAllotmentRound_unnumbered_cex :
    roundOrder "alpha" < roundOrder "Round 9007199254740992" ∧
    (0.5:ℝ) ≤ (probabilityFromStats (JSNum.num 1) cexRoundB).rawScore ∧
    estimateAllotmentRound [cexRoundA, cexRoundB] (JSNum.num 1) = "alpha" := by
  have hAraw : (probabilityFromStats (JSNum.num 1) cexRoundA).rawScore = 0.85 := by
    rw [pfs_branch5 (JSNum.num 1) cexRoundA (by simp [cexRoundA])
      (by simp [cexRoundA]) (by simp [cexRoundA]) (by simp [cexRoundA])]
    simp [cexRoundA]
  have hBraw : (probabilityFromStats (JSNum.num 1) cexRoundB).rawScore = 0.85 := by
    rw [pfs_branch5 (JSNum.num 1) cexRoundB (by simp [cexRoundB, cexRoundA])
      (by simp [cexRoundB, cexRoundA]) (by simp [cexRoundB, cexRoundA])
      (by simp [cexRoundB, cexRoundA])]
    simp [cexRoundB, cexRoundA]
  refine ⟨by decide, by rw [hBraw]; norm_num, ?_⟩
  have hmap : [cexRoundA, cexRoundB].map
      (fun item => (item.round, (probabilityFromStats (JSNum.num 1) item).rawScore)) =
      [("alpha", (0.85:ℝ)), ("Round 9007199254740992", 0.85)] := by
    simp only [List.map_cons, List.map_nil]
    rw [hAraw, hBraw]
    simp [cexRoundA, cexRoundB]
  have hsort : List.insertionSort roundLe
      [("alpha", (0.85:ℝ)), ("Round 9007199254740992", 0.85)] =
      [("alpha", (0.85:ℝ)), ("Round 9007199254740992", 0.85)] := by
    simp only [List.insertionSort, List.orderedInsert]
    rw [if_pos (by decide :
      roundLe ("alpha", (0.85:ℝ)) ("Round 9007199254740992", (0.85:ℝ)))]
  have hfind : List.find? (fun item => decide ((0.5:ℝ) ≤ item.2))
      [("alpha", (0.85:ℝ)), ("Round 9007199254740992", 0.85)] =
      some ("alpha", (0.85:ℝ)) :=
    List.find?_cons_of_pos _ (decide_eq_true (by norm_num : (0.5:ℝ) ≤ 0.85))
  simp only [estimateAllotmentRound]
  rw [hmap, hsort, hfind]

/-! ### Dedup: the insertion-ordered fold equals the per-key best variant -/

theorem mem_firstKeys (a : String) : ∀ l : List String, (a ∈ firstKeys l ↔ a ∈ l)
  | [] => Iff.rfl
  | k :: ks => by
    simp only [firstKeys, List.mem_cons, List.mem_filter, mem_firstKeys a ks,
      decide_eq_true_eq]
    constructor
    · rintro (h | ⟨h, _⟩)
      · exact Or.inl h
      · exact Or.inr h
    · rintro (h | h)
      · exact Or.inl h
      · by_cases hk : a = k
        · exact Or.inl hk
        · exact Or.inr ⟨h, hk⟩

theorem firstKeys_nodup : ∀ l : List String, (firstKeys l).Nodup
  | [] => List.nodup_nil
  | k :: ks => by
    rw [firstKeys]
    refine List.Nodup.cons ?_ ((firstKeys_nodup ks).filter _)
    intro hmem
    have := List.of_mem_filter hmem
    simp at this

theorem firstKeys_append_not_mem : ∀ (l : List String) (a : String), a ∉ l →
    firstKeys (l ++ [a]) = firstKeys l ++ [a]
  | [], a, _ => rfl
  | k :: ks, a, h => by
    have hak : a ≠ k := fun hc => h (hc ▸ List.mem_cons_self k ks)
    have haks : a ∉ ks := fun hc => h (List.mem_cons_of_mem _ hc)
    rw [List.cons_append, firstKeys, firstKeys_append_not_mem ks a haks,
      List.filter_append, firstKeys]
    simp [hak]

theorem firstKeys_append_mem : ∀ (l : List String) (a : String), a ∈ l →
    firstKeys (l ++ [a]) = firstKeys l
  | [], a, h => absurd h (List.not_mem_nil a)
  | k :: ks, a, h => by
    by_cases hks : a ∈ ks
    · rw [List.cons_append, firstKeys, firstKeys_append_mem ks a hks, firstKeys]
    · have hak : a = k := by
        rcases List.mem_cons.1 h with h2 | h2
        · exact h2
        · exact absurd h2 hks
      rw [List.cons_append, firstKeys, firstKeys_append_not_mem ks a hks,
        List.filter_append, firstKeys]
      simp [hak]

theorem bestVariant_append (l : List PredictedCollege) (x : PredictedCollege)
    (h : l ≠ []) : bestVariant (l ++ [x]) = keepBetter (bestVariant l) x := by
  cases l with
  | nil => exact absurd rfl h
  | cons y ys =>
    rw [List.cons_append, bestVariant, bestVariant, List.foldl_append, List.foldl_cons,
      List.foldl_nil]

theorem foldl_keepBetter_mem : ∀ (ys : List PredictedCollege) (y : PredictedCollege),
    ys.foldl keepBetter y ∈ y :: ys
  | [], y => List.mem_cons_self y []
  | z :: zs, y => by
    rw [List.foldl_cons]
    have h := foldl_keepBetter_mem zs (keepBetter y z)
    rcases List.mem_cons.1 h with h2 | h2
    · rw [h2, keepBetter]
      split_ifs
      · exact List.mem_cons_of_mem _ (List.mem_cons_self _ _)
      · exact List.mem_cons_self _ _
    · exact List.mem_cons_of_mem _ (List.mem_cons_of_mem _ h2)

theorem bestVariant_mem (l : List PredictedCollege) (h : l ≠ []) : bestVariant l ∈ l := by
  cases l with
  | nil => exact absurd rfl h
  | cons y ys =>
    rw [bestVariant]
    exact foldl_keepBetter_mem ys y

theorem dedupStep_map_not_mem (F : String → PredictedCollege) (x : PredictedCollege) :
    ∀ ks : List String, collegeKey x ∉ ks →
    dedupStep (ks.map (fun k => (k, F k))) x =
      ks.map (fun k => (k, F k)) ++ [(collegeKey x, x)]
  | [], _ => rfl
  | k :: ks, h => by
    have hk : ¬ k = collegeKey x := fun hc => h (hc ▸ List.mem_cons_self k ks)
    rw [List.map_cons, dedupStep, if_neg hk,
      dedupStep_map_not_mem F x ks (fun hc => h (List.mem_cons_of_mem _ hc)),
      List.cons_append]

theorem dedupStep_map_mem (F : String → PredictedCollege) (x : PredictedCollege) :
    ∀ ks : List String, ks.Nodup → collegeKey x ∈ ks →
    dedupStep (ks.map (fun k => (k, F k))) x =
      ks.map (fun k => (k, if k = collegeKey x then keepBetter (F k) x else F k))
  | [], _, h => absurd h (List.not_mem_nil _)
  | k :: ks, hnd, h => by
    rw [List.map_cons, dedupStep, List.map_cons]
    by_cases hk : k = collegeKey x
    · rw [if_pos hk, if_pos hk]
      have hks : collegeKey x ∉ ks := hk ▸ (List.nodup_cons.1 hnd).1
      have htail : ks.map (fun k2 => (k2, if k2 = collegeKey x then keepBetter (F k2) x
          else F k2)) = ks.map (fun k2 => (k2, F k2)) := by
        apply List.map_congr_left
        intro k2 hk2
        rw [if_neg (fun hc : k2 = collegeKey x => hks (hc ▸ hk2))]
      rw [htail]
      congr 1
      by_cases hb : isBetter x (F k)
      · rw [if_pos hb, keepBetter, if_pos hb]
      · rw [if_neg hb, keepBetter, if_neg hb]
    · rw [if_neg hk, if_neg hk,
        dedupStep_map_mem F x ks (List.nodup_cons.1 hnd).2
          (by
            rcases List.mem_cons.1 h with h2 | h2
            · exact absurd h2.symm hk
            · exact h2)]

theorem bestByCollege_eq (P : List PredictedCollege) :
    bestByCollege P = (firstKeys (P.map collegeKey)).map
      (fun k => (k, bestVariant (P.filter (fun r => decide (collegeKey r = k))))) := by
  induction P using List.reverseRecOn with
  | nil => rfl
  | append_singleton P x ih =>
    have hfold : bestByCollege (P ++ [x]) = dedupStep (bestByCollege P) x := by
      rw [bestByCollege, bestByCollege, List.foldl_append, List.foldl_cons, List.foldl_nil]
    rw [hfold, ih, List.map_append, List.map_cons, List.map_nil]
    by_cases hmem : collegeKey x ∈ P.map collegeKey
    · rw [dedupStep_map_mem _ x _ (firstKeys_nodup _) ((mem_firstKeys _ _).mpr hmem),
        firstKeys_append_mem _ _ hmem]
      apply List.map_congr_left
      intro k hk
      by_cases hkx : k = collegeKey x
      · rw [if_pos hkx]
        have hfilter : (P ++ [x]).filter (fun r => decide (collegeKey r = k)) =
            P.filter (fun r => decide (collegeKey r = k)) ++ [x] := by
          rw [List.filter_append]
          simp [hkx.symm]
        have hne : P.filter (fun r => decide (collegeKey r = k)) ≠ [] := by
          rw [hkx] at hk
          obtain ⟨r, hr, hkey⟩ := List.mem_map.1 hmem
          apply List.ne_nil_of_mem (a := r)
          rw [List.mem_filter]
          exact ⟨hr, decide_eq_true (by rw [hkey, hkx])⟩
        rw [hfilter, bestVariant_append _ _ hne]
      · rw [if_neg hkx]
        have hxk : ¬ collegeKey x = k := fun hc => hkx hc.symm
        have hfilter : (P ++ [x]).filter (fun r => decide (collegeKey r = k)) =
            P.filter (fun r => decide (collegeKey r = k)) := by
          rw [List.filter_append]
          simp [hxk]
        rw [hfilter]
    · rw [dedupStep_map_not_mem _ x _ (fun hc => hmem ((mem_firstKeys _ _).1 hc)),
        firstKeys_append_not_mem _ _ hmem, List.map_append]
      congr 1
      · apply List.map_congr_left
        intro k hk
        have hkx : ¬ collegeKey x = k := by
          intro hc
          rw [hc] at hmem
          exact hmem ((mem_firstKeys _ _).1 hk)
        have hfilter : (P ++ [x]).filter (fun r => decide (collegeKey r = k)) =
            P.filter (fun r => decide (collegeKey r = k)) := by
          rw [List.filter_append]
          simp [hkx]
        rw [hfilter]
      · have hfilter : P.filter (fun r => decide (collegeKey r = collegeKey x)) = [] := by
          rw [List.filter_eq_nil_iff]
          intro r hr
          simp only [decide_eq_true_eq]
          exact fun hc => hmem (hc ▸ List.mem_map_of_mem collegeKey hr)
        rw [List.map_cons, List.map_nil]
        have : (P ++ [x]).filter (fun r => decide (collegeKey r = collegeKey x)) = [x] := by
          rw [List.filter_append, hfilter]
          simp
        rw [this]
        rfl

theorem map_snd_bestByCollege (P : List PredictedCollege) :
    (bestByCollege P).map Prod.snd = dedupByCollege P := by
  rw [bestByCollege_eq, dedupByCollege, List.map_map]
  rfl

/-! ### The final sort order -/

theorem finalLe_iff (a b : PredictedCollege) : finalLe a b ↔ descProbMean a b := by
  simp only [finalLe, finalCompare, jsOr, descProbMean]
  by_cases h : b.probability - a.probability = 0
  · rw [if_pos h]
    constructor
    · intro hle
      exact Or.inr ⟨by linarith, by linarith⟩
    · rintro (hlt | ⟨heq, hmm⟩)
      · linarith
      · linarith
  · rw [if_neg h]
    constructor
    · intro hle
      exact Or.inl (lt_of_le_of_ne (by linarith)
        (fun hc => h (sub_eq_zero.mpr hc)))
    · rintro (hlt | ⟨heq, hmm⟩)
      · linarith
      · exact absurd (sub_eq_zero.mpr heq.symm) h

theorem descProbMean_total (a b : PredictedCollege) :
    descProbMean a b ∨ descProbMean b a := by
  rcases lt_trichotomy a.probability b.probability with h | h | h
  · exact Or.inr (Or.inl h)
  · rcases le_total a.marks_mean.valD b.marks_mean.valD with hm | hm
    · exact Or.inr (Or.inr ⟨h.symm, hm⟩)
    · exact Or.inl (Or.inr ⟨h, hm⟩)
  · exact Or.inl (Or.inl h)

theorem descProbMean_trans (a b c : PredictedCollege)
    (hab : descProbMean a b) (hbc : descProbMean b c) : descProbMean a c := by
  rcases hab with h1 | ⟨h1, h1m⟩ <;> rcases hbc with h2 | ⟨h2, h2m⟩
  · exact Or.inl (lt_trans h2 h1)
  · exact Or.inl (by rw [← h2]; exact h1)
  · exact Or.inl (by rw [h1]; exact h2)
  · exact Or.inr ⟨h1.trans h2, le_trans h2m h1m⟩

theorem predictColleges_sorted (marks : JSNum) (filters : PredictorFilters)
    (data : List CollegeSummary) :
    (predictColleges marks filters data).Sorted descProbMean := by
  haveI htot : IsTotal PredictedCollege finalLe := ⟨fun a b => by
    rcases descProbMean_total a b with h | h
    · exact Or.inl ((finalLe_iff a b).2 h)
    · exact Or.inr ((finalLe_iff b a).2 h)⟩
  haveI htrans : IsTrans PredictedCollege finalLe := ⟨fun a b c hab hbc =>
    (finalLe_iff a c).2 (descProbMean_trans a b c ((finalLe_iff a b).1 hab)
      ((finalLe_iff b c).1 hbc))⟩
  rw [predictColleges]
  exact List.Pairwise.imp (fun h => (finalLe_iff _ _).1 h)
    (List.sorted_insertionSort finalLe _)

theorem dedupByCollege_keys_distinct (P : List PredictedCollege) :
    (dedupByCollege P).Pairwise (fun a b => collegeKey a ≠ collegeKey b) := by
  have keyF : ∀ k ∈ firstKeys (P.map collegeKey),
      collegeKey (bestVariant (P.filter (fun r => decide (collegeKey r = k)))) = k := by
    intro k hk
    obtain ⟨r, hr, hkey⟩ := List.mem_map.1 ((mem_firstKeys _ _).1 hk)
    have hne : P.filter (fun r => decide (collegeKey r = k)) ≠ [] :=
      List.ne_nil_of_mem (List.mem_filter.2 ⟨hr, decide_eq_true hkey⟩)
    have h2 := bestVariant_mem _ hne
    rw [List.mem_filter] at h2
    exact of_decide_eq_true h2.2
  rw [dedupByCollege, List.pairwise_map]
  refine List.Pairwise.imp_of_mem ?_ (firstKeys_nodup (P.map collegeKey))
  intro k1 k2 h1 h2 hne
  rw [keyF k1 h1, keyF k2 h2]
  exact hne

/-- On records whose `marks_mean` is a finite number — as every consolidated
record's is — the dedup tie-break reads: higher probability, then strictly
higher marks mean, then more recent year. -/
theorem isBetter_iff (item current : PredictedCollege) (a b : ℝ)
    (ha : item.marks_mean = JSNum.num a) (hb : current.marks_mean = JSNum.num b) :
    isBetter item current ↔
      (current.probability < item.probability ∨
        (item.probability = current.probability ∧ b < a) ∨
        (item.probability = current.probability ∧ a = b ∧
          current.year < item.year)) := by
  rw [isBetter, ha, hb]
  simp only [jsLt, jsEq]

theorem consolidated_marks_mean_finite (data : List CollegeSummary) :
    ∀ c ∈ consolidateAcrossRounds data, ∃ v : ℝ, c.marks_mean = JSNum.num v := by
  intro c hc
  rw [consolidateAcrossRounds] at hc
  obtain ⟨e, _, rfl⟩ := List.mem_map.1 hc
  exact ⟨_, rfl⟩

/-- C2: the output of `predictColleges` is exactly the consolidated records
that pass all five filters and whose raw score is at least 0.10 (a record at
exactly 0.10 passes the threshold test, one strictly below fails), reduced to
at most one record per trimmed lower-cased institution name — keeping the
variant with the higher probability, ties broken by the higher (finite,
aggregated) marks mean, then by the more recent year, the earlier candidate
on exact ties — and arranged in descending probability with ties broken by
descending marks mean. -/
theorem predictColleges_pipeline (marks : JSNum) (filters : PredictorFilters)
    (data : List CollegeSummary) :
    (predictColleges marks filters data).Perm
      (dedupByCollege (rankedCandidates marks filters data)) ∧
    (predictColleges marks filters data).Sorted descProbMean ∧
    (predictColleges marks filters data).Pairwise
      (fun a b => collegeKey a ≠ collegeKey b) ∧
    (∀ r ∈ predictColleges marks filters data, ∃ c ∈ consolidateAcrossRounds data,
      passesFilters filters c.toCollegeSummary = true ∧ r = mkPredicted marks c ∧
        0.1 ≤ r.probability) ∧
    (∀ r ∈ rankedCandidates marks filters data,
      ∃ u ∈ predictColleges marks filters data, collegeKey u = collegeKey r) ∧
    (∀ r ∈ rankedCandidates marks filters data, ∃ v : ℝ, r.marks_mean = JSNum.num v) := by
  have hperm : (predictColleges marks filters data).Perm
      (dedupByCollege (rankedCandidates marks filters data)) := by
    rw [predictColleges, ← map_snd_bestByCollege]
    exact List.perm_insertionSort finalLe _
  refine ⟨hperm, predictColleges_sorted marks filters data, ?_,
    fun r hr => mem_predictColleges_sound marks filters data r hr, ?_, ?_⟩
  · refine (hperm.pairwise_iff ?_).2 (dedupByCollege_keys_distinct _)
    intro a b h hc
    exact h hc.symm
  · intro r hr
    have hk : collegeKey r ∈
        firstKeys ((rankedCandidates marks filters data).map collegeKey) :=
      (mem_firstKeys _ _).2 (List.mem_map_of_mem collegeKey hr)
    refine ⟨bestVariant ((rankedCandidates marks filters data).filter
        (fun r2 => decide (collegeKey r2 = collegeKey r))), ?_, ?_⟩
    · apply hperm.mem_iff.2
      rw [dedupByCollege]
      exact List.mem_map_of_mem _ hk
    · have hne : (rankedCandidates marks filters data).filter
          (fun r2 => decide (collegeKey r2 = collegeKey r)) ≠ [] :=
        List.ne_nil_of_mem (List.mem_filter.2 ⟨hr, decide_eq_true rfl⟩)
      have h2 := bestVariant_mem _ hne
      rw [List.mem_filter] at h2
      exact of_decide_eq_true h2.2
  · intro r hr
    obtain ⟨c, hc, _, rfl, _⟩ := mem_rankedCandidates marks filters data r hr
    exact consolidated_marks_mean_finite data c hc

end Predictor
